import Mathlib

/-!
Shallow embedding of `update_version.py`, a script that synchronizes a
hardcoded version string across a fixed list of project metadata files.

File contents are modelled as `List Char`.  Reading with Python's default
text mode (universal newlines) translates `"\r\n"` and `"\r"` to `"\n"`;
`readlines` then splits the translated text into lines, each keeping its
trailing `'\n'` (the last line may lack one).  `data[2] = ...` is modelled
with a bounds check (Python raises `IndexError` when the list has fewer
than 3 elements).  Writing with `newline="\n"` performs no translation,
so `writelines` is concatenation.  The file system is a partial map from
paths to contents; the whole run folds the per-file step over the fixed
location list, collecting the printed confirmation lines and stopping at
the first error.
-/

namespace UpdateVersion

/-- `VERSION = "0.2.5"` from the script. -/
def VERSION : String := "0.2.5"

/-- The hardcoded list of target paths. -/
def locations : List String :=
  ["./vec-utils/Cargo.toml", "./vec-utils-py/Cargo.toml", "./vec-utils-py/pyproject.toml"]

/-- Universal-newline translation performed by `open(path, "r")`:
`"\r\n"` becomes `"\n"` and a lone `"\r"` becomes `"\n"`. -/
def univNL : List Char → List Char
  | [] => []
  | '\r' :: '\n' :: rest => '\n' :: univNL rest
  | '\r' :: rest => '\n' :: univNL rest
  | c :: rest => c :: univNL rest

/-- Split text into lines, each line keeping its trailing `'\n'`; a final
fragment without a terminator forms a last line of its own.  This is the
line splitting of `readlines` (after newline translation) and also the
raw byte-level line decomposition of a written file. -/
def splitNL : List Char → List (List Char)
  | [] => []
  | c :: rest =>
    if c = '\n' then ['\n'] :: splitNL rest
    else
      match splitNL rest with
      | [] => [[c]]
      | l :: ls => (c :: l) :: ls

/-- `file.readlines()` on a file opened in default text mode. -/
def readlines (s : List Char) : List (List Char) := splitNL (univNL s)

/-- The replacement line `f'version = "{VERSION}"\n'`. -/
def versionLine : List Char := ("version = \"" ++ VERSION ++ "\"\n").toList

/-- `data[2] = versionLine` with Python's bounds check (`IndexError` when
the list has fewer than 3 elements is modelled as `none`). -/
def setLine2 (data : List (List Char)) : Option (List (List Char)) :=
  if 3 ≤ data.length then some (data.set 2 versionLine) else none

/-- Process one file's contents: `readlines`, assign index 2, and
`writelines` (concatenation, since `newline="\n"` disables translation). -/
def syncContent (content : List Char) : Option (List Char) :=
  (setLine2 (readlines content)).map List.flatten

/-- Errors the script can raise while processing one target. -/
inductive Err where
  | accessError (path : String)
  | indexError (path : String)
  deriving DecidableEq, Repr

/-- A file system: a partial map from paths to file contents. -/
def FS : Type := String → Option (List Char)

/-- One loop iteration of the script on path `p`: open and read (an
absent file raises an access error), rewrite line 2 (a short file raises
an index error), write back, and print `f"{p} version updated"`. -/
def step (fs : FS) (p : String) : Except Err (FS × String) :=
  match fs p with
  | none => .error (.accessError p)
  | some c =>
    match syncContent c with
    | none => .error (.indexError p)
    | some out => .ok (fun q => if q = p then some out else fs q, p ++ " version updated")

/-- Run the script's loop over a list of target paths.  Returns the final
file system, the lines printed to standard output in order, and `none` on
success or the first uncaught error.  On an error the loop aborts at
once: earlier targets keep their mutated state and later targets are
never touched. -/
def runSync (fs : FS) : List String → FS × List String × Option Err
  | [] => (fs, [], none)
  | p :: rest =>
    match step fs p with
    | .error e => (fs, [], some e)
    | .ok (fs', line) =>
      match runSync fs' rest with
      | (fs'', out, err) => (fs'', line :: out, err)

/-- The confirmation line printed for a target. -/
def confirmation (p : String) : String := p ++ " version updated"

/-- A path holds a file that synchronization leaves unchanged. -/
def synced (fs : FS) (p : String) : Prop :=
  ∃ c, fs p = some c ∧ syncContent c = some c

/-- Well-formed line lists: each line ends with a newline and has no
interior newline, except that the last line may instead be a nonempty
newline-free fragment. -/
inductive WF : List (List Char) → Prop
  | nil : WF []
  | last (l : List Char) (h1 : l ≠ []) (h2 : '\n' ∉ l) : WF [l]
  | cons (b : List Char) (ls : List (List Char)) (hb : '\n' ∉ b) (h : WF ls) :
      WF ((b ++ ['\n']) :: ls)

/-! ### Concrete fixtures used to instantiate the general theorems -/

/-- The spec's concrete manifest file, before synchronization. -/
def sampleContent : List Char :=
  "[package]\nname = \"x\"\nversion = \"0.2.4\"\nedition = \"2021\"\n".toList

/-- The spec's concrete manifest file, after synchronization. -/
def sampleTarget : List Char :=
  "[package]\nname = \"x\"\nversion = \"0.2.5\"\nedition = \"2021\"\n".toList

/-- A file system where every path holds the sample manifest. -/
def sampleFS : FS := fun _ => some sampleContent

/-- A pointwise-identical copy of `sampleFS` built from a different
closed term. -/
def sampleFS2 : FS := fun p => if p = p then some sampleContent else none

/-- A file whose lines end in carriage-return-line-feed. -/
def crlfContent : List Char := "a\r\nb\r\nc\r\nd\r\n".toList

/-- The result of synchronizing `crlfContent`: every terminator is
normalized to a bare line feed. -/
def crlfSynced : List Char := "a\nb\nversion = \"0.2.5\"\nd\n".toList

/-- A file system with no files at all. -/
def missingFS : FS := fun _ => none

/-- A file system where every path holds a two-line file. -/
def shortFS : FS := fun _ => some ("a\nb\n".toList)

/-- A file system holding the sample manifest only at path `"a"`. -/
def partialFS : FS := fun q => if q = "a" then some sampleContent else none

/-! ### Structural lemmas about newline translation and line splitting -/

/-- Universal-newline translation leaves no carriage return behind. -/
theorem univNL_no_cr (s : List Char) : '\r' ∉ univNL s := by
  induction s using univNL.induct with
  | case1 => simp [univNL]
  | case2 rest ih => simp only [univNL, List.mem_cons, not_or]; exact ⟨by decide, ih⟩
  | case3 rest h ih => simp only [univNL, List.mem_cons, not_or]; exact ⟨by decide, ih⟩
  | case4 c rest h1 h2 ih =>
    simp only [univNL, List.mem_cons, not_or]
    exact ⟨fun h => h2 h.symm, ih⟩

/-- On carriage-return-free text, universal-newline translation is the
identity. -/
theorem univNL_eq_self (s : List Char) (h : '\r' ∉ s) : univNL s = s := by
  induction s using univNL.induct with
  | case1 => rfl
  | case2 rest ih => simp at h
  | case3 rest hne ih => simp at h
  | case4 c rest h1 h2 ih =>
    simp only [List.mem_cons, not_or] at h
    simp only [univNL]
    exact congrArg (c :: ·) (ih h.2)

/-- Concatenating the split lines recovers the original text. -/
theorem flatten_splitNL (s : List Char) : (splitNL s).flatten = s := by
  induction s with
  | nil => rfl
  | cons c rest ih =>
    by_cases h : c = '\n'
    · subst h; simp [splitNL, ih]
    · simp only [splitNL, if_neg h]
      cases hr : splitNL rest with
      | nil => simp [hr] at ih; simp [ih]
      | cons l ls => simp [hr] at ih; simp [ih]

/-- The output of line splitting is well formed. -/
theorem wf_splitNL (s : List Char) : WF (splitNL s) := by
  induction s with
  | nil => exact WF.nil
  | cons c rest ih =>
    by_cases h : c = '\n'
    · subst h
      simp only [splitNL, if_pos rfl]
      exact WF.cons [] _ (by simp) ih
    · simp only [splitNL, if_neg h]
      cases hr : splitNL rest with
      | nil => exact WF.last [c] (by simp) (by simp; exact fun hc => h hc.symm)
      | cons l ls =>
        rw [hr] at ih
        show WF ((c :: l) :: ls)
        cases ih with
        | last l h1 h2 =>
          refine WF.last (c :: l) (by simp) ?_
          simp only [List.mem_cons, not_or]
          exact ⟨fun hc => h hc.symm, h2⟩
        | cons b ls hb hwf =>
          show WF (((c :: b) ++ ['\n']) :: ls)
          refine WF.cons (c :: b) ls ?_ hwf
          simp only [List.mem_cons, not_or]
          exact ⟨fun hc => h hc.symm, hb⟩

/-- Splitting text that starts with a terminated, newline-free line peels
that line off. -/
theorem splitNL_line (b t : List Char) (hb : '\n' ∉ b) :
    splitNL (b ++ '\n' :: t) = (b ++ ['\n']) :: splitNL t := by
  induction b with
  | nil => simp [splitNL]
  | cons c b ih =>
    simp only [List.mem_cons, not_or] at hb
    have hc : ¬ c = '\n' := fun h => hb.1 h.symm
    simp only [List.cons_append, splitNL, if_neg hc]
    rw [show splitNL (b.append ('\n' :: t)) = (b ++ ['\n']) :: splitNL t from ih hb.2]

/-- A nonempty newline-free fragment splits into a single line. -/
theorem splitNL_frag (b : List Char) (h1 : b ≠ []) (h2 : '\n' ∉ b) :
    splitNL b = [b] := by
  induction b with
  | nil => simp at h1
  | cons c b ih =>
    simp only [List.mem_cons, not_or] at h2
    have hc : ¬ c = '\n' := fun h => h2.1 h.symm
    simp only [splitNL, if_neg hc]
    cases hb : b with
    | nil => subst hb; rfl
    | cons d bs =>
      rw [← hb, ih (by simp [hb]) h2.2]

/-- Splitting the concatenation of a well-formed line list recovers the
list: the write-then-read roundtrip. -/
theorem splitNL_flatten (ls : List (List Char)) (h : WF ls) :
    splitNL ls.flatten = ls := by
  induction h with
  | nil => rfl
  | last l h1 h2 => simpa using splitNL_frag l h1 h2
  | cons b ls hb hwf ih =>
    have he : ((b ++ ['\n']) :: ls).flatten = b ++ '\n' :: ls.flatten := by simp
    rw [he, splitNL_line b ls.flatten hb, ih]

/-- Replacing any line with a terminated, newline-free line preserves
well-formedness. -/
theorem wf_set (ls : List (List Char)) (h : WF ls) (n : ℕ) (b : List Char)
    (hb : '\n' ∉ b) : WF (ls.set n (b ++ ['\n'])) := by
  induction h generalizing n with
  | nil => simpa using WF.nil
  | last l h1 h2 =>
    cases n with
    | zero => exact WF.cons b [] hb WF.nil
    | succ n => simpa using WF.last l h1 h2
  | cons b' ls hb' hwf ih =>
    cases n with
    | zero => exact WF.cons b _ hb hwf
    | succ n => exact WF.cons b' _ hb' (ih n)

/-! ### Lemmas about one file's synchronization -/

/-- The replacement line is the version declaration followed by exactly
one line feed. -/
theorem versionLine_eq : versionLine = "version = \"0.2.5\"".toList ++ ['\n'] := by decide

/-- The version declaration body contains no newline. -/
theorem versionLine_body_no_nl : '\n' ∉ "version = \"0.2.5\"".toList := by decide

/-- Unfolding of a successful `syncContent`. -/
theorem syncContent_eq_some (c out : List Char) :
    syncContent c = some out ↔
      3 ≤ (readlines c).length ∧ out = ((readlines c).set 2 versionLine).flatten := by
  unfold syncContent setLine2
  by_cases h : 3 ≤ (readlines c).length
  · simp [h, eq_comm]
  · simp [h]

/-- A synchronized file contains no carriage return anywhere. -/
theorem sync_no_cr (c out : List Char) (h : syncContent c = some out) : '\r' ∉ out := by
  obtain ⟨-, rfl⟩ := (syncContent_eq_some c out).mp h
  intro hmem
  rw [List.mem_flatten] at hmem
  obtain ⟨l, hl, hcl⟩ := hmem
  rcases List.mem_or_eq_of_mem_set hl with hl' | rfl
  · have : '\r' ∈ (splitNL (univNL c)).flatten := List.mem_flatten.mpr ⟨l, hl', hcl⟩
    rw [flatten_splitNL] at this
    exact univNL_no_cr c this
  · exact absurd hcl (by decide)

/-- The raw lines of a synchronized file are exactly the lines read from
the original file with index 2 replaced by the version line. -/
theorem splitNL_sync (c out : List Char) (h : syncContent c = some out) :
    splitNL out = (readlines c).set 2 versionLine := by
  obtain ⟨-, rfl⟩ := (syncContent_eq_some c out).mp h
  rw [versionLine_eq]
  exact splitNL_flatten _ (wf_set _ (wf_splitNL (univNL c)) 2 _ versionLine_body_no_nl)

/-- Re-reading a synchronized file in text mode gives its raw lines: no
further newline translation happens. -/
theorem readlines_sync (c out : List Char) (h : syncContent c = some out) :
    readlines out = (readlines c).set 2 versionLine := by
  rw [readlines, univNL_eq_self out (sync_no_cr c out h)]
  exact splitNL_sync c out h

/-- Synchronizing keeps the number of lines read from the file. -/
theorem readlines_sync_length (c out : List Char) (h : syncContent c = some out) :
    (readlines out).length = (readlines c).length := by
  rw [readlines_sync c out h, List.length_set]

/-- Synchronizing a file a second time leaves it unchanged. -/
theorem sync_idem (c out : List Char) (h : syncContent c = some out) :
    syncContent out = some out := by
  have h3 : 3 ≤ (readlines c).length := ((syncContent_eq_some c out).mp h).1
  refine (syncContent_eq_some out out).mpr ⟨?_, ?_⟩
  · rw [readlines_sync_length c out h]; exact h3
  · rw [readlines_sync c out h, List.set_set]
    exact (((syncContent_eq_some c out).mp h).2)

/-! ### Lemmas about the whole run -/

/-- Equation for `step` on a missing file. -/
theorem step_none (fs : FS) (p : String) (h : fs p = none) :
    step fs p = .error (.accessError p) := by simp [step, h]

/-- Equation for `step` on a file with fewer than 3 lines. -/
theorem step_short (fs : FS) (p : String) (c : List Char) (h : fs p = some c)
    (h2 : syncContent c = none) : step fs p = .error (.indexError p) := by
  simp [step, h, h2]

/-- Equation for `step` on a successfully synchronized file. -/
theorem step_some (fs : FS) (p : String) (c out : List Char) (h : fs p = some c)
    (h2 : syncContent c = some out) :
    step fs p = .ok (fun q => if q = p then some out else fs q, confirmation p) := by
  simp [step, h, h2, confirmation]

/-- Inversion for a successful `step`. -/
theorem step_ok_inv (fs fs' : FS) (p line : String)
    (h : step fs p = .ok (fs', line)) :
    ∃ c out, fs p = some c ∧ syncContent c = some out ∧
      fs' = (fun q => if q = p then some out else fs q) ∧ line = confirmation p := by
  cases hc : fs p with
  | none => rw [step_none fs p hc] at h; exact absurd h (by simp)
  | some c =>
    cases ho : syncContent c with
    | none => rw [step_short fs p c hc ho] at h; exact absurd h (by simp)
    | some out =>
      rw [step_some fs p c out hc ho] at h
      refine ⟨c, out, rfl, ho, ?_, ?_⟩
      · exact (congrArg Prod.fst (Except.ok.inj h)).symm
      · exact (congrArg Prod.snd (Except.ok.inj h)).symm

/-- Equation for `runSync` when the first target fails. -/
theorem runSync_cons_error (fs : FS) (p : String) (rest : List String) (e : Err)
    (h : step fs p = .error e) : runSync fs (p :: rest) = (fs, [], some e) := by
  simp [runSync, h]

/-- Equation for `runSync` when the first target succeeds. -/
theorem runSync_cons_ok (fs fs' : FS) (p line : String) (rest : List String)
    (h : step fs p = .ok (fs', line)) :
    runSync fs (p :: rest) =
      ((runSync fs' rest).1, line :: (runSync fs' rest).2.1, (runSync fs' rest).2.2) := by
  simp [runSync, h]

/-- A step never touches any path other than its own. -/
theorem step_frame (fs fs' : FS) (p line q : String)
    (h : step fs p = .ok (fs', line)) (hq : q ≠ p) : fs' q = fs q := by
  obtain ⟨c, out, -, -, rfl, -⟩ := step_ok_inv fs fs' p line h
  simp [hq]

/-- After a successful step, the stepped path is synchronized. -/
theorem step_synced (fs fs' : FS) (p line : String)
    (h : step fs p = .ok (fs', line)) : synced fs' p := by
  obtain ⟨c, out, -, ho, rfl, -⟩ := step_ok_inv fs fs' p line h
  exact ⟨out, by simp, sync_idem c out ho⟩

/-- A step preserves synchronized paths. -/
theorem step_preserves_synced (fs fs' : FS) (p line q : String)
    (h : step fs p = .ok (fs', line)) (hq : synced fs q) : synced fs' q := by
  by_cases hpq : q = p
  · subst hpq; exact step_synced fs fs' q line h
  · obtain ⟨c, hc, ho⟩ := hq
    exact ⟨c, (step_frame fs fs' p line q h hpq).trans hc, ho⟩

/-- A run never touches paths outside its target list. -/
theorem runSync_frame (L : List String) : ∀ (fs : FS) (q : String), q ∉ L →
    (runSync fs L).1 q = fs q := by
  induction L with
  | nil => intro fs q _; rfl
  | cons p rest ih =>
    intro fs q hq
    simp only [List.mem_cons, not_or] at hq
    cases hs : step fs p with
    | error e => rw [runSync_cons_error fs p rest e hs]
    | ok r =>
      rw [runSync_cons_ok fs r.1 p r.2 rest (by rw [hs])]
      exact (ih r.1 q hq.2).trans (step_frame fs r.1 p r.2 q (by rw [hs]) hq.1)

/-- A run preserves synchronized paths. -/
theorem runSync_preserves_synced (L : List String) : ∀ (fs : FS) (q : String),
    synced fs q → synced (runSync fs L).1 q := by
  induction L with
  | nil => intro fs q hq; exact hq
  | cons p rest ih =>
    intro fs q hq
    cases hs : step fs p with
    | error e => rw [runSync_cons_error fs p rest e hs]; exact hq
    | ok r =>
      rw [runSync_cons_ok fs r.1 p r.2 rest (by rw [hs])]
      exact ih r.1 q (step_preserves_synced fs r.1 p r.2 q (by rw [hs]) hq)

/-- After a fully successful run, every target path is synchronized. -/
theorem runSync_synced (L : List String) : ∀ (fs fs' : FS) (out : List String),
    runSync fs L = (fs', out, none) → ∀ q ∈ L, synced fs' q := by
  induction L with
  | nil => intro fs fs' out h q hq; simp at hq
  | cons p rest ih =>
    intro fs fs' out h q hq
    cases hs : step fs p with
    | error e =>
      rw [runSync_cons_error fs p rest e hs] at h
      exact absurd (congrArg (·.2.2) h) (by simp)
    | ok r =>
      rw [runSync_cons_ok fs r.1 p r.2 rest (by rw [hs])] at h
      have hrest : runSync r.1 rest = (fs', (runSync r.1 rest).2.1, none) := by
        have h1 := congrArg (·.1) h
        have h2 := congrArg (·.2.2) h
        simp only at h1 h2
        rw [← h1, ← h2]
      rcases List.mem_cons.mp hq with rfl | hq'
      · have : synced r.1 q := step_synced fs r.1 q r.2 (by rw [hs])
        have := runSync_preserves_synced rest r.1 q this
        rwa [congrArg (·.1) hrest] at this
      · exact ih r.1 fs' _ hrest q hq'

/-- A fully successful run prints exactly one confirmation per target, in
list order. -/
theorem runSync_out (L : List String) : ∀ (fs fs' : FS) (out : List String),
    runSync fs L = (fs', out, none) → out = L.map confirmation := by
  induction L with
  | nil => intro fs fs' out h; exact (congrArg (·.2.1) h).symm
  | cons p rest ih =>
    intro fs fs' out h
    cases hs : step fs p with
    | error e =>
      rw [runSync_cons_error fs p rest e hs] at h
      exact absurd (congrArg (·.2.2) h) (by simp)
    | ok r =>
      rw [runSync_cons_ok fs r.1 p r.2 rest (by rw [hs])] at h
      obtain ⟨c, o, -, -, -, hline⟩ := step_ok_inv fs r.1 p r.2 (by rw [hs])
      have h1 := congrArg (·.2.1) h
      have h2 := congrArg (·.2.2) h
      simp only at h1 h2
      have := ih r.1 (runSync r.1 rest).1 (runSync r.1 rest).2.1 (by rw [← h2])
      rw [← h1, this, List.map_cons, hline]

/-- Running over targets that are all already synchronized succeeds,
changes no file, and prints one confirmation per target. -/
theorem runSync_of_synced (L : List String) : ∀ fs : FS, (∀ p ∈ L, synced fs p) →
    (∀ q, (runSync fs L).1 q = fs q) ∧
      (runSync fs L).2 = (L.map confirmation, none) := by
  induction L with
  | nil => intro fs h; exact ⟨fun q => rfl, rfl⟩
  | cons p rest ih =>
    intro fs h
    obtain ⟨c, hc, ho⟩ := h p (by simp)
    have hs : step fs p = .ok (fun q => if q = p then some c else fs q, confirmation p) :=
      step_some fs p c c hc ho
    rw [runSync_cons_ok fs _ p _ rest hs]
    have heq : ∀ q, (fun q => if q = p then some c else fs q) q = fs q := by
      intro q
      by_cases hq : q = p
      · subst hq; simp only [if_pos rfl]; exact hc.symm
      · simp only [if_neg hq]
    have hsynced : ∀ q ∈ rest, synced (fun q => if q = p then some c else fs q) q := by
      intro q hq
      obtain ⟨c', hc', ho'⟩ := h q (by simp [hq])
      exact ⟨c', (heq q).trans hc', ho'⟩
    obtain ⟨ih1, ih2⟩ := ih _ hsynced
    refine ⟨fun q => (ih1 q).trans (heq q), ?_⟩
    rw [Prod.mk.injEq] at ih2 ⊢
    exact ⟨by rw [ih2.1, List.map_cons], ih2.2⟩

/-- Splitting a run at a successful prefix. -/
theorem runSync_append (L1 L2 : List String) : ∀ (fs fs1 : FS) (out1 : List String),
    runSync fs L1 = (fs1, out1, none) →
    runSync fs (L1 ++ L2) =
      ((runSync fs1 L2).1, out1 ++ (runSync fs1 L2).2.1, (runSync fs1 L2).2.2) := by
  induction L1 with
  | nil =>
    intro fs fs1 out1 h
    rw [Prod.mk.injEq, Prod.mk.injEq] at h
    obtain ⟨h1, h2, -⟩ := h
    subst h1; subst h2
    rfl
  | cons p rest ih =>
    intro fs fs1 out1 h
    cases hs : step fs p with
    | error e =>
      rw [runSync_cons_error fs p rest e hs, Prod.mk.injEq, Prod.mk.injEq] at h
      exact absurd h.2.2 (by simp)
    | ok r =>
      rw [runSync_cons_ok fs r.1 p r.2 rest (by rw [hs])] at h
      rw [Prod.mk.injEq, Prod.mk.injEq] at h
      obtain ⟨h1, h2, h3⟩ := h
      have hrest : runSync r.1 rest = (fs1, (runSync r.1 rest).2.1, none) := by
        rw [Prod.mk.injEq, Prod.mk.injEq]
        exact ⟨h1, rfl, h3⟩
      rw [List.cons_append, runSync_cons_ok fs r.1 p r.2 (rest ++ L2) (by rw [hs]),
        ih r.1 fs1 (runSync r.1 rest).2.1 hrest]
      rw [Prod.mk.injEq, Prod.mk.injEq]
      exact ⟨rfl, by rw [← h2, List.cons_append], rfl⟩

/-- Runs started from pointwise-identical file systems produce
pointwise-identical final file systems and identical printed output. -/
theorem runSync_congr (L : List String) : ∀ fs fs' : FS, (∀ p, fs p = fs' p) →
    (∀ q, (runSync fs L).1 q = (runSync fs' L).1 q) ∧
      (runSync fs L).2 = (runSync fs' L).2 := by
  induction L with
  | nil => intro fs fs' h; exact ⟨h, rfl⟩
  | cons p rest ih =>
    intro fs fs' h
    cases hc : fs p with
    | none =>
      have hc' : fs' p = none := (h p).symm.trans hc
      rw [runSync_cons_error fs p rest _ (step_none fs p hc),
        runSync_cons_error fs' p rest _ (step_none fs' p hc')]
      exact ⟨h, rfl⟩
    | some c =>
      have hc' : fs' p = some c := (h p).symm.trans hc
      cases ho : syncContent c with
      | none =>
        rw [runSync_cons_error fs p rest _ (step_short fs p c hc ho),
          runSync_cons_error fs' p rest _ (step_short fs' p c hc' ho)]
        exact ⟨h, rfl⟩
      | some out =>
        rw [runSync_cons_ok fs _ p _ rest (step_some fs p c out hc ho),
          runSync_cons_ok fs' _ p _ rest (step_some fs' p c out hc' ho)]
        obtain ⟨ih1, ih2⟩ := ih (fun q => if q = p then some out else fs q)
          (fun q => if q = p then some out else fs' q)
          (fun q => by by_cases hq : q = p <;> simp [hq, h q])
        refine ⟨ih1, ?_⟩
        rw [Prod.mk.injEq]
        exact ⟨congrArg (fun x => confirmation p :: x.1) ih2, congrArg (·.2) ih2⟩

/-! ### The claims -/

/-- C1: for every target file containing at least 3 lines, synchronization
succeeds and the written file's raw line at zero-based index 2 is exactly
the literal string `version = "0.2.5"` followed by a single line-feed
character (no carriage return), regardless of the line's previous
content. -/
theorem claim1_line2_replaced (content : List Char)
    (h : 3 ≤ (readlines content).length) :
    ∃ out, syncContent content = some out ∧
      (splitNL out)[2]? = some ("version = \"0.2.5\"".toList ++ ['\n']) := by
  have hsync : syncContent content = some (((readlines content).set 2 versionLine).flatten) :=
    (syncContent_eq_some _ _).mpr ⟨h, rfl⟩
  refine ⟨_, hsync, ?_⟩
  rw [splitNL_sync _ _ hsync, ← versionLine_eq]
  exact List.getElem?_set_eq_of_lt versionLine (by omega)

/-- C1 witness: the sample manifest has at least 3 lines and its line at
index 2 is rewritten to the version declaration. -/
theorem claim1_witness :
    3 ≤ (readlines sampleContent).length ∧
      ∃ out, syncContent sampleContent = some out ∧
        (splitNL out)[2]? = some ("version = \"0.2.5\"".toList ++ ['\n']) :=
  ⟨by decide, claim1_line2_replaced sampleContent (by decide)⟩

/-- C2 counterexample: on a file whose lines end in carriage-return-line-feed,
the line at index 0 is not byte-identical before and after synchronization:
its terminator is rewritten from `"\r\n"` to `"\n"`. -/
theorem claim2_counterexample :
    syncContent crlfContent = some crlfSynced ∧
      (splitNL crlfContent)[0]? = some ("a\r\n".toList) ∧
      (splitNL crlfSynced)[0]? = some ("a\n".toList) ∧
      some ("a\r\n".toList) ≠ some ("a\n".toList) := by decide

/-- C2 amended: for every target file that contains no carriage return,
every raw line other than the one at index 2 is byte-identical before and
after synchronization (on files with carriage-return-line-feed endings
the content survives but every terminator is normalized to a line feed). -/
theorem claim2_line_isolation (content : List Char) (hcr : '\r' ∉ content)
    (h : 3 ≤ (readlines content).length) :
    ∃ out, syncContent content = some out ∧
      ∀ i, i ≠ 2 → (splitNL out)[i]? = (splitNL content)[i]? := by
  have hsync : syncContent content = some (((readlines content).set 2 versionLine).flatten) :=
    (syncContent_eq_some _ _).mpr ⟨h, rfl⟩
  refine ⟨_, hsync, ?_⟩
  intro i hi
  rw [splitNL_sync _ _ hsync, readlines, univNL_eq_self content hcr]
  exact List.getElem?_set_ne (fun he => hi he.symm)

/-- C2 amended witness: the sample manifest contains no carriage return,
and its lines away from index 2 are untouched. -/
theorem claim2_witness :
    '\r' ∉ sampleContent ∧ 3 ≤ (readlines sampleContent).length ∧
      ∃ out, syncContent sampleContent = some out ∧
        ∀ i, i ≠ 2 → (splitNL out)[i]? = (splitNL sampleContent)[i]? :=
  ⟨by decide, by decide, claim2_line_isolation sampleContent (by decide) (by decide)⟩

/-- C5: for every target file with at least 3 lines, synchronization
preserves the count and relative order of the file's lines (as the script
reads them): only the line at index 2 changes. -/
theorem claim5_order_preserved (content : List Char)
    (h : 3 ≤ (readlines content).length) :
    ∃ out, syncContent content = some out ∧
      (readlines out).length = (readlines content).length ∧
      ∀ i, i ≠ 2 → (readlines out)[i]? = (readlines content)[i]? := by
  have hsync : syncContent content = some (((readlines content).set 2 versionLine).flatten) :=
    (syncContent_eq_some _ _).mpr ⟨h, rfl⟩
  refine ⟨_, hsync, readlines_sync_length _ _ hsync, ?_⟩
  intro i hi
  rw [readlines_sync _ _ hsync]
  exact List.getElem?_set_ne (fun he => hi he.symm)

/-- C5 witness: line count and off-index-2 lines of the sample manifest
are preserved. -/
theorem claim5_witness :
    3 ≤ (readlines sampleContent).length ∧
      ∃ out, syncContent sampleContent = some out ∧
        (readlines out).length = (readlines sampleContent).length ∧
        ∀ i, i ≠ 2 → (readlines out)[i]? = (readlines sampleContent)[i]? :=
  ⟨by decide, claim5_order_preserved sampleContent (by decide)⟩

/-- C9: a synchronized file contains no carriage return at all — text-mode
reading already translated every carriage-return and
carriage-return-line-feed terminator to a line feed, and the write
performs no reverse translation — so re-reading it in text mode performs
no further translation. -/
theorem claim9_normalized (content out : List Char)
    (h : syncContent content = some out) :
    '\r' ∉ out ∧ readlines out = splitNL out :=
  ⟨sync_no_cr content out h,
    by rw [readlines, univNL_eq_self out (sync_no_cr content out h)]⟩

/-- C9 witness: the synchronized carriage-return-line-feed file is fully
normalized to line-feed endings. -/
theorem claim9_witness : '\r' ∉ crlfSynced ∧ readlines crlfSynced = splitNL crlfSynced :=
  claim9_normalized crlfContent crlfSynced (by decide)

/-- C3: on the spec's concrete manifest, the run succeeds, every target
file ends with exactly the expected four lines, and standard output
contains a line ending in `version updated`. -/
theorem claim3_concrete_scenario :
    (runSync sampleFS locations).2.2 = none ∧
      (∀ p ∈ locations, (runSync sampleFS locations).1 p = some sampleTarget) ∧
      splitNL sampleTarget =
        ["[package]\n".toList, "name = \"x\"\n".toList,
          "version = \"0.2.5\"\n".toList, "edition = \"2021\"\n".toList] ∧
      (runSync sampleFS locations).2.1 = locations.map confirmation ∧
      ("./vec-utils/Cargo.toml" ++ " version updated") ∈ (runSync sampleFS locations).2.1 := by
  refine ⟨by decide, by decide, by decide, by decide, by decide⟩

/-- C4: running the synchronizer twice over the same target list is
idempotent: when the first run succeeds, the second run also succeeds and
produces the same file contents at every path and the same printed
output. -/
theorem claim4_idempotent (fs fs1 fs2 : FS) (L : List String)
    (out1 out2 : List String) (e2 : Option Err)
    (h1 : runSync fs L = (fs1, out1, none))
    (h2 : runSync fs1 L = (fs2, out2, e2)) :
    (∀ p, fs2 p = fs1 p) ∧ out2 = out1 ∧ e2 = none := by
  have hsynced : ∀ p ∈ L, synced fs1 p := runSync_synced L fs fs1 out1 h1
  obtain ⟨hfs, hout⟩ := runSync_of_synced L fs1 hsynced
  have hfs2 : (runSync fs1 L).1 = fs2 := congrArg (·.1) h2
  have hout2 : ((out2, e2) : List String × Option Err) = (L.map confirmation, none) :=
    (congrArg (·.2) h2).symm.trans hout
  rw [Prod.mk.injEq] at hout2
  refine ⟨?_, ?_, hout2.2⟩
  · intro p
    exact (congrArg (fun f => f p) hfs2).symm.trans (hfs p)
  · rw [hout2.1, runSync_out L fs fs1 out1 h1]

/-- C4 witness: a second run over the sample file system reproduces the
contents the first run left at the first target. -/
theorem claim4_witness :
    (runSync (runSync sampleFS locations).1 locations).1 "./vec-utils/Cargo.toml" =
      (runSync sampleFS locations).1 "./vec-utils/Cargo.toml" :=
  ((claim4_idempotent sampleFS (runSync sampleFS locations).1
      (runSync (runSync sampleFS locations).1 locations).1 locations
      (runSync sampleFS locations).2.1
      (runSync (runSync sampleFS locations).1 locations).2.1
      (runSync (runSync sampleFS locations).1 locations).2.2
      (by rfl) (by rfl)).1) "./vec-utils/Cargo.toml"

/-- C6: a missing target raises an access error and a target with fewer
than 3 lines raises an out-of-range index error; in both cases the run
aborts with the error and prints no confirmation line for that target. -/
theorem claim6_fatal_errors (fs : FS) (p : String) (rest : List String) :
    (fs p = none → runSync fs (p :: rest) = (fs, [], some (.accessError p))) ∧
      ∀ c, fs p = some c → (readlines c).length < 3 →
        runSync fs (p :: rest) = (fs, [], some (.indexError p)) := by
  constructor
  · intro h
    exact runSync_cons_error fs p rest _ (step_none fs p h)
  · intro c hc hlen
    have ho : syncContent c = none := by
      unfold syncContent setLine2
      rw [if_neg (by omega)]
      rfl
    exact runSync_cons_error fs p rest _ (step_short fs p c hc ho)

/-- C6 witness: a run against a missing path aborts with an access error,
and a run against a two-line file aborts with an index error; neither
prints anything. -/
theorem claim6_witness :
    runSync missingFS ["x"] = (missingFS, [], some (.accessError "x")) ∧
      runSync shortFS ["y"] = (shortFS, [], some (.indexError "y")) :=
  ⟨(claim6_fatal_errors missingFS "x" []).1 rfl,
    (claim6_fatal_errors shortFS "y" []).2 ("a\nb\n".toList) rfl (by decide)⟩

/-- C7: no transactionality: if the target after prefix `L1` fails, the
run stops there with exactly the prefix's confirmations printed, every
prefix target already permanently mutated to its synchronized state, and
every path outside the prefix (in particular all later targets) left
untouched. -/
theorem claim7_no_transactionality (fs : FS) (L1 L2 : List String) (p : String)
    (fs1 : FS) (out1 : List String) (e : Err)
    (h1 : runSync fs L1 = (fs1, out1, none))
    (h2 : step fs1 p = .error e) :
    runSync fs (L1 ++ p :: L2) = (fs1, out1, some e) ∧
      out1 = L1.map confirmation ∧
      (∀ q ∈ L1, synced fs1 q) ∧
      ∀ q, q ∉ L1 → fs1 q = fs q := by
  refine ⟨?_, runSync_out L1 fs fs1 out1 h1, runSync_synced L1 fs fs1 out1 h1, ?_⟩
  · rw [runSync_append L1 (p :: L2) fs fs1 out1 h1, runSync_cons_error fs1 p L2 e h2]
    simp
  · intro q hq
    have h := runSync_frame L1 fs q hq
    rw [h1] at h
    exact h

/-- C7 witness: with the sample manifest only at `"a"`, the run over
`["a", "b", "c"]` mutates `"a"`, prints its confirmation, and aborts on
the missing `"b"` without reaching `"c"`. -/
theorem claim7_witness :
    runSync partialFS (["a"] ++ "b" :: ["c"]) =
      ((runSync partialFS ["a"]).1, (runSync partialFS ["a"]).2.1,
        some (.accessError "b")) :=
  (claim7_no_transactionality partialFS ["a"] ["c"] "b"
    (runSync partialFS ["a"]).1 (runSync partialFS ["a"]).2.1
    (.accessError "b") (by rfl) (by rfl)).1

/-- C8: a fully successful run prints exactly one line per target, in
list order, each of the form `<path> version updated`. -/
theorem claim8_output (fs fs' : FS) (out : List String)
    (h : runSync fs locations = (fs', out, none)) :
    out = locations.map confirmation :=
  runSync_out locations fs fs' out h

/-- C8 witness: the successful sample run prints the three confirmation
lines in list order. -/
theorem claim8_witness :
    (runSync sampleFS locations).2.1 = locations.map confirmation :=
  claim8_output sampleFS (runSync sampleFS locations).1
    (runSync sampleFS locations).2.1 (by rfl)

/-- C10: synchronization is deterministic: two runs started from
pointwise-identical target-file contents produce pointwise-identical
final file contents and identical standard-output text (the model takes
no input other than the file system; version and targets are
constants). -/
theorem claim10_deterministic (fs fs' : FS) (h : ∀ p, fs p = fs' p) :
    (∀ q, (runSync fs locations).1 q = (runSync fs' locations).1 q) ∧
      (runSync fs locations).2 = (runSync fs' locations).2 :=
  runSync_congr locations fs fs' h

/-- C10 witness: two distinct closed file-system terms with identical
contents yield identical printed output. -/
theorem claim10_witness :
    (runSync sampleFS locations).2 = (runSync sampleFS2 locations).2 :=
  (claim10_deterministic sampleFS sampleFS2 (fun p => by simp [sampleFS, sampleFS2])).2

end UpdateVersion
